import Mathlib

set_option maxHeartbeats 4000000
set_option maxRecDepth 10000

/-!
# Verification of Shamir Secret Sharing over GF(2^8)

Shallow embedding of the `sss` Rust crate (`src/gf256.rs`, `src/poly.rs`,
`src/lib.rs`): field arithmetic via constant-time log/exp table lookups,
polynomial generation/evaluation, Lagrange interpolation at zero, and the
`split`/`combine` coordinator.  Machine bytes are modelled as `Nat` with
explicit `% 256` where overflow matters; panics are modelled by `Option`.
-/

namespace SSS

/-! ## The log/exp tables of `gf256::subtle` (0x11b polynomial, generator 0x03) -/

def EXP : List Nat := [
  1, 3, 5, 15, 17, 51, 85, 255, 26, 46, 114, 150, 161, 248, 19, 53,
  95, 225, 56, 72, 216, 115, 149, 164, 247, 2, 6, 10, 30, 34, 102, 170,
  229, 52, 92, 228, 55, 89, 235, 38, 106, 190, 217, 112, 144, 171, 230, 49,
  83, 245, 4, 12, 20, 60, 68, 204, 79, 209, 104, 184, 211, 110, 178, 205,
  76, 212, 103, 169, 224, 59, 77, 215, 98, 166, 241, 8, 24, 40, 120, 136,
  131, 158, 185, 208, 107, 189, 220, 127, 129, 152, 179, 206, 73, 219, 118, 154,
  181, 196, 87, 249, 16, 48, 80, 240, 11, 29, 39, 105, 187, 214, 97, 163,
  254, 25, 43, 125, 135, 146, 173, 236, 47, 113, 147, 174, 233, 32, 96, 160,
  251, 22, 58, 78, 210, 109, 183, 194, 93, 231, 50, 86, 250, 21, 63, 65,
  195, 94, 226, 61, 71, 201, 64, 192, 91, 237, 44, 116, 156, 191, 218, 117,
  159, 186, 213, 100, 172, 239, 42, 126, 130, 157, 188, 223, 122, 142, 137, 128,
  155, 182, 193, 88, 232, 35, 101, 175, 234, 37, 111, 177, 200, 67, 197, 84,
  252, 31, 33, 99, 165, 244, 7, 9, 27, 45, 119, 153, 176, 203, 70, 202,
  69, 207, 74, 222, 121, 139, 134, 145, 168, 227, 62, 66, 198, 81, 243, 14,
  18, 54, 90, 238, 41, 123, 141, 140, 143, 138, 133, 148, 167, 242, 13, 23,
  57, 75, 221, 124, 132, 151, 162, 253, 28, 36, 108, 180, 199, 82, 246, 1]

def LOG : List Int := [
  0, 0, 25, 1, 50, 2, 26, 198, 75, 199, 27, 104, 51, 238, 223, 3,
  100, 4, 224, 14, 52, 141, 129, 239, 76, 113, 8, 200, 248, 105, 28, 193,
  125, 194, 29, 181, 249, 185, 39, 106, 77, 228, 166, 114, 154, 201, 9, 120,
  101, 47, 138, 5, 33, 15, 225, 36, 18, 240, 130, 69, 53, 147, 218, 142,
  150, 143, 219, 189, 54, 208, 206, 148, 19, 92, 210, 241, 64, 70, 131, 56,
  102, 221, 253, 48, 191, 6, 139, 98, 179, 37, 226, 152, 34, 136, 145, 16,
  126, 110, 72, 195, 163, 182, 30, 66, 58, 107, 40, 84, 250, 133, 61, 186,
  43, 121, 10, 21, 155, 159, 94, 202, 78, 212, 172, 229, 243, 115, 167, 87,
  175, 88, 168, 80, 244, 234, 214, 116, 79, 174, 233, 213, 231, 230, 173, 232,
  44, 215, 117, 122, 235, 22, 11, 245, 89, 203, 95, 176, 156, 169, 81, 160,
  127, 12, 246, 111, 23, 196, 73, 236, 216, 67, 31, 45, 164, 118, 123, 183,
  204, 187, 62, 90, 251, 96, 177, 134, 59, 82, 161, 108, 170, 85, 41, 157,
  151, 178, 135, 144, 97, 190, 220, 252, 188, 149, 207, 205, 55, 63, 91, 209,
  83, 57, 132, 60, 65, 162, 109, 71, 20, 42, 158, 93, 86, 242, 211, 171,
  68, 17, 146, 217, 35, 32, 46, 137, 180, 124, 184, 38, 119, 153, 227, 165,
  103, 74, 237, 222, 197, 49, 254, 24, 13, 99, 140, 128, 192, 247, 112, 7]

def expNum : Nat :=
  247704880781559356684414323119999879637317647180040216102211349143305888774923398537951341803642731683984666991564019150676315804531779449815159115664189418245566988781254625896260912026622159780553349108386186142268315007856282091988200171439146255715840100601167723801170608095743514940052926055042184507632911811387723359914440662207451538163404716729158929845121383729837235901114109841630616474463024741216292666125260571984924724184385554713500007113061044175325657975136216706165622836048350080632971744177780693200859426168487707538171671676645432511882666690861394815764438377708986394032816479809277592321

def logNum : Nat :=
  939374623831894136699086600277250597547650664638770418422125146541797353646788332867483593573384618611044815625336497665827114626705134492515730415652478061620339993830966980270842846318821775850471098591710629241171812800746666233448222972174585295916389942636813666312872914849454985560152530477328703759683306625234997237483834721220409437442253146756845415190424543171129629468776480674528486868811725071010351012234056630775688111116293610821126543142160426617079940511630006820862697466582575257349116925728488930366609138264019883664906661504235885380294353134295748489096855100647154935187045898006656778240

/-- Bignum-packed form of `EXP` (byte `n` of `expNum`), for fast kernel evaluation. -/
def expB (n : Nat) : Nat := (expNum >>> (8 * n)) &&& 255

/-- Bignum-packed form of `LOG` (byte `n` of `logNum`). -/
def logB (n : Nat) : Int := Int.ofNat ((logNum >>> (8 * n)) &&& 255)

theorem expB_eq_getD : ∀ n < 256, expB n = EXP.getD n 0 := by decide

theorem logB_eq_getD : ∀ n < 256, logB n = LOG.getD n 0 := by decide

/-! ## `gf256::subtle::constant_log` / `constant_exp` -/

/-- Binary digit sum computed with explicit fuel (structural recursion, so
the kernel can evaluate it). -/
def popCountFuel : Nat → Nat → Nat
  | 0, _ => 0
  | f + 1, n => if n = 0 then 0 else n % 2 + popCountFuel f (n / 2)

/-- Number of one bits of a 64-bit `usize` (`z.count_ones()`); 64 fuel
covers every value below `2 ^ 64`. -/
def popCount (n : Nat) : Nat := popCountFuel 64 n

/-- Zero-bit count of a 64-bit `usize` (`z.count_zeros()`). -/
def countZeros64 (z : Nat) : Nat := 64 - popCount (z % 2 ^ 64)

/-- The constant-time selection mask of `subtle`:
`1isize.wrapping_shr(z.count_zeros())` — `wrapping_shr` reduces the shift
amount mod the 64-bit width.  Yields `1` exactly when `z = 0` (for the
small `z` arising from byte-range indices). -/
def subtleMask (z : Nat) : Nat := 1 >>> (countZeros64 z % 64)

/-- Embeds `subtle::constant_log`: a branch-free scan of the whole `LOG`
table accumulating `v * m` where the mask `m` selects index `n`.  The
`isize` accumulator is modelled as `Int` (the selected values are at most
254, so `wrapping_add` never wraps). -/
def constant_log (n : Nat) : Int :=
  LOG.enum.foldl
    (fun x iv => x + iv.snd * (subtleMask ((iv.fst + 1) ^^^ (n + 1)) : Int))
    0

/-- Embeds `subtle::constant_exp`: same branch-free scan over `EXP`, with
the `u8` accumulator's `wrapping_add` modelled as `% 256`. -/
def constant_exp (n : Nat) : Nat :=
  EXP.enum.foldl
    (fun x iv => (x + iv.snd * subtleMask ((iv.fst + 1) ^^^ (n + 1))) % 256)
    0

theorem popCountFuel_le_bits : ∀ (f k n : Nat), n < 2 ^ k → popCountFuel f n ≤ k := by
  intro f
  induction f with
  | zero => intro k n _; exact Nat.zero_le k
  | succ f ih =>
    intro k n hn
    by_cases h0 : n = 0
    · simp [popCountFuel, h0]
    · have hk : k ≠ 0 := by
        rintro rfl
        exact h0 (Nat.lt_one_iff.mp hn)
      obtain ⟨k, rfl⟩ := Nat.exists_eq_succ_of_ne_zero hk
      have hn2 : n < 2 * 2 ^ k := by
        rw [← Nat.pow_succ']
        exact hn
      have hdiv : n / 2 < 2 ^ k := Nat.div_lt_of_lt_mul hn2
      have hmod : n % 2 ≤ 1 := Nat.le_of_lt_succ (Nat.mod_lt n (by decide))
      calc popCountFuel (f + 1) n = n % 2 + popCountFuel f (n / 2) := by simp [popCountFuel, h0]
      _ ≤ 1 + k := Nat.add_le_add hmod (ih k (n / 2) hdiv)
      _ = k + 1 := Nat.add_comm 1 k

theorem popCountFuel_pos : ∀ (f n : Nat), 0 < n → n < 2 ^ f → 1 ≤ popCountFuel f n := by
  intro f
  induction f with
  | zero => intro n hn hlt; omega
  | succ f ih =>
    intro n hn hlt
    have h0 : n ≠ 0 := Nat.pos_iff_ne_zero.mp hn
    rw [show popCountFuel (f + 1) n = n % 2 + popCountFuel f (n / 2) by simp [popCountFuel, h0]]
    rcases Nat.mod_two_eq_zero_or_one n with h | h
    · have hne : n / 2 ≠ 0 := by
        intro hz
        have := Nat.div_add_mod n 2
        omega
      have hn2 : n < 2 * 2 ^ f := by
        rw [← Nat.pow_succ']
        exact hlt
      have hdiv : n / 2 < 2 ^ f := Nat.div_lt_of_lt_mul hn2
      have := ih (n / 2) (Nat.pos_iff_ne_zero.mpr hne) hdiv
      omega
    · omega

theorem subtleMask_zero : subtleMask 0 = 1 := by decide

theorem subtleMask_of_ne_zero {z : Nat} (h0 : z ≠ 0) (hz : z < 2 ^ 9) : subtleMask z = 0 := by
  have hz64 : z < 2 ^ 64 := lt_of_lt_of_le hz (Nat.pow_le_pow_right (by decide) (by decide))
  have hmod : z % 2 ^ 64 = z := Nat.mod_eq_of_lt hz64
  have hle : popCount z ≤ 9 := popCountFuel_le_bits 64 9 z hz
  have hpos : 1 ≤ popCount z := popCountFuel_pos 64 z (Nat.pos_iff_ne_zero.mpr h0) hz64
  unfold subtleMask countZeros64
  rw [hmod]
  have h1 : (64 - popCount z) % 64 = 64 - popCount z := Nat.mod_eq_of_lt (by omega)
  rw [h1, Nat.shiftRight_eq_div_pow]
  exact Nat.div_eq_of_lt (Nat.one_lt_two_pow_iff.mpr (by omega))

/-- The `subtle` mask selects exactly the table entry whose index is the input. -/
theorem subtleMask_select {i n : Nat} (hi : i < 256) (hn : n < 256) :
    subtleMask ((i + 1) ^^^ (n + 1)) = if i = n then 1 else 0 := by
  by_cases h : i = n
  · subst h
    simp [Nat.xor_self, subtleMask_zero]
  · have hne : (i + 1) ^^^ (n + 1) ≠ 0 := by
      rw [Ne, Nat.xor_eq_zero]
      omega
    have hlt : (i + 1) ^^^ (n + 1) < 2 ^ 9 :=
      Nat.xor_lt_two_pow (by omega) (by omega)
    simp [subtleMask_of_ne_zero hne hlt, h]

theorem constant_log_go :
    ∀ (L : List Int) (s : Nat) (x : Int), s + L.length ≤ 256 → ∀ n < 256,
      (List.enumFrom s L).foldl
        (fun x iv => x + iv.snd * (subtleMask ((iv.fst + 1) ^^^ (n + 1)) : Int)) x
      = x + (if s ≤ n ∧ n < s + L.length then L.getD (n - s) 0 else 0) := by
  intro L
  induction L with
  | nil =>
    intro s x _ n _
    rw [List.enumFrom_nil, List.foldl_nil,
      if_neg (by simp only [List.length_nil]; omega : ¬ (s ≤ n ∧ n < s + ([] : List Int).length))]
    simp
  | cons v L ih =>
    intro s x hs n hn
    have hs2 : s + 1 + L.length ≤ 256 := by
      simp only [List.length_cons] at hs
      omega
    have hslt : s < 256 := by omega
    rw [List.enumFrom_cons, List.foldl_cons, subtleMask_select hslt hn]
    by_cases h : s = n
    · rw [if_pos h, ih (s + 1) (x + v * (1 : Nat)) hs2 n hn,
        if_neg (by omega : ¬ (s + 1 ≤ n ∧ n < s + 1 + L.length)),
        if_pos (by simp only [List.length_cons]; omega : s ≤ n ∧ n < s + (v :: L).length),
        (by omega : n - s = 0), List.getD_cons_zero]
      push_cast
      ring
    · rw [if_neg h, ih (s + 1) (x + v * (0 : Nat)) hs2 n hn]
      by_cases h2 : s + 1 ≤ n ∧ n < s + 1 + L.length
      · rw [if_pos h2,
          if_pos (by simp only [List.length_cons]; omega : s ≤ n ∧ n < s + (v :: L).length),
          (by omega : n - s = (n - (s + 1)) + 1), List.getD_cons_succ]
        push_cast
        ring
      · rw [if_neg h2,
          if_neg (by simp only [List.length_cons]; omega : ¬ (s ≤ n ∧ n < s + (v :: L).length))]
        push_cast
        ring

theorem constant_exp_go :
    ∀ (L : List Nat) (s : Nat) (x : Nat), s + L.length ≤ 256 → x < 256 → ∀ n < 256,
      (List.enumFrom s L).foldl
        (fun x iv => (x + iv.snd * subtleMask ((iv.fst + 1) ^^^ (n + 1))) % 256) x
      = (if s ≤ n ∧ n < s + L.length then (x + L.getD (n - s) 0) % 256 else x) := by
  intro L
  induction L with
  | nil =>
    intro s x _ _ n _
    rw [List.enumFrom_nil, List.foldl_nil,
      if_neg (by simp only [List.length_nil]; omega : ¬ (s ≤ n ∧ n < s + ([] : List Nat).length))]
  | cons v L ih =>
    intro s x hs hx n hn
    have hs2 : s + 1 + L.length ≤ 256 := by
      simp only [List.length_cons] at hs
      omega
    have hslt : s < 256 := by omega
    rw [List.enumFrom_cons, List.foldl_cons, subtleMask_select hslt hn]
    by_cases h : s = n
    · rw [if_pos h, ih (s + 1) ((x + v * 1) % 256) hs2 (Nat.mod_lt _ (by decide)) n hn,
        if_neg (by omega : ¬ (s + 1 ≤ n ∧ n < s + 1 + L.length)),
        if_pos (by simp only [List.length_cons]; omega : s ≤ n ∧ n < s + (v :: L).length),
        (by omega : n - s = 0), List.getD_cons_zero, Nat.mul_one]
    · rw [if_neg h, show x + v * 0 = x by ring, Nat.mod_eq_of_lt hx,
        ih (s + 1) x hs2 hx n hn]
      by_cases h2 : s + 1 ≤ n ∧ n < s + 1 + L.length
      · rw [if_pos h2,
          if_pos (by simp only [List.length_cons]; omega : s ≤ n ∧ n < s + (v :: L).length),
          (by omega : n - s = (n - (s + 1)) + 1), List.getD_cons_succ]
      · rw [if_neg h2,
          if_neg (by simp only [List.length_cons]; omega : ¬ (s ≤ n ∧ n < s + (v :: L).length))]

theorem LOG_length : LOG.length = 256 := by decide

theorem EXP_length : EXP.length = 256 := by decide

theorem EXP_getD_lt : ∀ n < 256, EXP.getD n 0 < 256 := by decide

/-- `constant_log` is a plain `LOG` table lookup on byte-range inputs. -/
theorem constant_log_eq (n : Nat) (hn : n < 256) : constant_log n = LOG.getD n 0 := by
  unfold constant_log
  rw [show LOG.enum = List.enumFrom 0 LOG from rfl,
    constant_log_go LOG 0 0 (by rw [LOG_length]) n hn]
  rw [LOG_length]
  simp [hn]

/-- `constant_exp` is a plain `EXP` table lookup on byte-range inputs. -/
theorem constant_exp_eq (n : Nat) (hn : n < 256) : constant_exp n = EXP.getD n 0 := by
  unfold constant_exp
  rw [show EXP.enum = List.enumFrom 0 EXP from rfl,
    constant_exp_go EXP 0 0 (by rw [EXP_length]) (by decide) n hn]
  rw [EXP_length]
  simp only [Nat.zero_le, hn, Nat.zero_add, Nat.sub_zero, and_self, if_true]
  exact Nat.mod_eq_of_lt (EXP_getD_lt n hn)

/-! ## `gf256::mul` and `gf256::div` -/

/-- Embeds `gf256::mul`.  Bytes are `Nat`s below 256; the `isize`
intermediate arithmetic is modelled as `Int` (`wrapping_rem_euclid 255`
never wraps for in-range table values, so it is `Int.emod`), and the
`as usize` cast of the non-negative remainder is `Int.toNat`. -/
def mul (e a : Nat) : Nat :=
  if e = 0 ∨ a = 0 then 0
  else
    let l0 := constant_log e
    let l1 := constant_log a
    let v := ((l0 + l1) % 255).toNat
    constant_exp v

/-- Embeds `gf256::div`.  The `panic!("Divide by zero")` branch is
modelled as `none`. -/
def div (e a : Nat) : Option Nat :=
  if a = 0 then none
  else if e = 0 then some 0
  else
    let l0 := constant_log e
    let l1 := constant_log a
    some (constant_exp ((l0 - l1) % 255).toNat)

/-- Table-lookup form of `mul`, used as a fast computation vehicle. -/
def mulT (e a : Nat) : Nat :=
  if e = 0 ∨ a = 0 then 0 else expB ((logB e + logB a) % 255).toNat

/-- Table-lookup form of the successful branch of `div`. -/
def divT (e a : Nat) : Nat :=
  if e = 0 then 0 else expB ((logB e - logB a) % 255).toNat

/-! ### Decidable facts about the tables, and bridges -/

theorem expB_lt (n : Nat) : expB n < 256 :=
  Nat.lt_succ_of_le (Nat.and_le_right)

theorem expB_ne_zero : ∀ n < 256, expB n ≠ 0 := by decide

theorem logB_nonneg (n : Nat) : 0 ≤ logB n := Int.ofNat_nonneg _

theorem logB_le : ∀ n < 256, logB n ≤ 254 := by decide

theorem expB_logB : ∀ n, n < 256 → 1 ≤ n → expB (logB n).toNat = n := by decide

theorem logB_expB : ∀ v < 255, logB (expB v) = (v : Int) := by decide

theorem expB_zero : expB 0 = 1 := by decide

theorem logB_one : logB 1 = 0 := by decide

theorem constant_exp_lt (n : Nat) : constant_exp n < 256 := by
  unfold constant_exp
  have h : ∀ (L : List (Nat × Nat)) (x : Nat), x < 256 →
      L.foldl (fun x iv => (x + iv.snd * subtleMask ((iv.fst + 1) ^^^ (n + 1))) % 256) x < 256 := by
    intro L
    induction L with
    | nil => intro x hx; exact hx
    | cons p L ih =>
      intro x hx
      rw [List.foldl_cons]
      exact ih _ (Nat.mod_lt _ (by decide))
  exact h _ 0 (by decide)

theorem mul_lt (e a : Nat) : mul e a < 256 := by
  by_cases h : e = 0 ∨ a = 0
  · simp [mul, h]
  · simp only [mul, h, if_false]
    exact constant_exp_lt _

theorem divT_lt (e a : Nat) : divT e a < 256 := by
  by_cases h : e = 0
  · simp [divT, h]
  · simp only [divT, h, if_false]
    exact expB_lt _

/-- On byte inputs `mul` is exactly the table-lookup form. -/
theorem mul_eq_mulT (e a : Nat) (he : e < 256) (ha : a < 256) : mul e a = mulT e a := by
  by_cases h : e = 0 ∨ a = 0
  · simp [mul, mulT, h]
  · have hv : 0 ≤ (logB e + logB a) % 255 := Int.emod_nonneg _ (by decide)
    have hv2 : (logB e + logB a) % 255 < 255 := Int.emod_lt_of_pos _ (by decide)
    have hvlt : ((logB e + logB a) % 255).toNat < 256 := by omega
    simp only [mul, mulT, h, if_false]
    rw [constant_log_eq e he, constant_log_eq a ha, ← logB_eq_getD e he, ← logB_eq_getD a ha,
      constant_exp_eq _ hvlt, ← expB_eq_getD _ hvlt]

/-- `div` succeeds on a nonzero divisor, returning the table form. -/
theorem div_eq_divT (e a : Nat) (he : e < 256) (ha : a < 256) (ha0 : a ≠ 0) :
    div e a = some (divT e a) := by
  by_cases h : e = 0
  · simp [div, divT, h, ha0]
  · have hv : 0 ≤ (logB e - logB a) % 255 := Int.emod_nonneg _ (by decide)
    have hv2 : (logB e - logB a) % 255 < 255 := Int.emod_lt_of_pos _ (by decide)
    have hvlt : ((logB e - logB a) % 255).toNat < 256 := by omega
    simp only [div, divT, h, ha0, if_false]
    rw [constant_log_eq e he, constant_log_eq a ha, ← logB_eq_getD e he, ← logB_eq_getD a ha,
      constant_exp_eq _ hvlt, ← expB_eq_getD _ hvlt]

theorem div_isNone_iff (e a : Nat) : div e a = none ↔ a = 0 := by
  unfold div
  by_cases h : a = 0
  · simp [h]
  · rw [if_neg h]
    by_cases h2 : e = 0 <;> simp [h2, h]

/-! ### Multiplicative structure of the table field -/

theorem emod255_nonneg (x : Int) : 0 ≤ x % 255 := Int.emod_nonneg _ (by decide)

theorem emod255_lt (x : Int) : x % 255 < 255 := Int.emod_lt_of_pos _ (by decide)

theorem expB_emod_ne_zero (x : Int) : expB ((x % 255).toNat) ≠ 0 := by
  have h1 := emod255_nonneg x
  have h2 := emod255_lt x
  exact expB_ne_zero _ (by omega)

theorem mulT_of_ne {e a : Nat} (he : e ≠ 0) (ha : a ≠ 0) :
    mulT e a = expB ((logB e + logB a) % 255).toNat := by
  unfold mulT
  rw [if_neg (by tauto)]

theorem divT_of_ne {e a : Nat} (he : e ≠ 0) :
    divT e a = expB ((logB e - logB a) % 255).toNat := by
  unfold divT
  rw [if_neg he]

theorem logB_expB_emod (x : Int) : logB (expB (x % 255).toNat) = x % 255 := by
  have h1 := emod255_nonneg x
  have h2 := emod255_lt x
  rw [logB_expB _ (by omega)]
  omega

theorem mulT_lt (e a : Nat) : mulT e a < 256 := by
  by_cases h : e = 0 ∨ a = 0
  · simp [mulT, h]
  · simp only [mulT, h, if_false]
    exact expB_lt _

theorem mulT_ne_zero {e a : Nat} (he : e ≠ 0) (ha : a ≠ 0) : mulT e a ≠ 0 := by
  rw [mulT_of_ne he ha]
  exact expB_emod_ne_zero _

theorem mulT_comm (e a : Nat) : mulT e a = mulT a e := by
  unfold mulT
  by_cases h : e = 0 ∨ a = 0
  · rw [if_pos h, if_pos (Or.symm h)]
  · rw [if_neg h, if_neg (fun hc => h (Or.symm hc)), Int.add_comm]

theorem mulT_zero_left (a : Nat) : mulT 0 a = 0 := by simp [mulT]

theorem mulT_zero_right (e : Nat) : mulT e 0 = 0 := by simp [mulT]

theorem one_mulT (a : Nat) (ha : a < 256) : mulT 1 a = a := by
  by_cases h : a = 0
  · simp [mulT, h]
  · rw [mulT_of_ne (by decide) h, logB_one, Int.zero_add]
    have h0 : 0 ≤ logB a := logB_nonneg a
    have h1 : logB a ≤ 254 := logB_le a ha
    rw [show logB a % 255 = logB a by omega]
    exact expB_logB a ha (Nat.pos_of_ne_zero h)

theorem mulT_assoc (a b c : Nat) (ha : a < 256) (hb : b < 256) (hc : c < 256) :
    mulT (mulT a b) c = mulT a (mulT b c) := by
  by_cases h0 : a = 0 ∨ b = 0 ∨ c = 0
  · rcases h0 with h | h | h <;> subst h <;> simp [mulT]
  · push_neg at h0
    obtain ⟨ha0, hb0, hc0⟩ := h0
    rw [mulT_of_ne ha0 hb0, mulT_of_ne hb0 hc0,
      mulT_of_ne (expB_emod_ne_zero _) hc0, mulT_of_ne ha0 (expB_emod_ne_zero _),
      logB_expB_emod, logB_expB_emod]
    congr 1
    omega

/-- Core of claim C3: multiplying the quotient back by the divisor recovers
the dividend (table form). -/
theorem mulT_divT_cancel (a b : Nat) (ha : a < 256) (hb0 : b ≠ 0) :
    mulT (divT a b) b = a := by
  by_cases ha0 : a = 0
  · subst ha0
    simp [divT, mulT]
  · rw [divT_of_ne ha0, mulT_of_ne (expB_emod_ne_zero _) hb0, logB_expB_emod]
    have h0 : 0 ≤ logB a := logB_nonneg a
    have h1 : logB a ≤ 254 := logB_le a ha
    rw [show ((logB a - logB b) % 255 + logB b) % 255 = logB a by omega]
    exact expB_logB a ha (Nat.pos_of_ne_zero ha0)

/-- Core of claim C3, other direction: dividing the product by a factor
recovers the other factor (table form). -/
theorem divT_mulT_cancel (a b : Nat) (ha : a < 256) (hb0 : b ≠ 0) :
    divT (mulT a b) b = a := by
  by_cases ha0 : a = 0
  · subst ha0
    simp [mulT, divT]
  · rw [mulT_of_ne ha0 hb0, divT_of_ne (expB_emod_ne_zero _), logB_expB_emod]
    have h0 : 0 ≤ logB a := logB_nonneg a
    have h1 : logB a ≤ 254 := logB_le a ha
    rw [show ((logB a + logB b) % 255 - logB b) % 255 = logB a by omega]
    exact expB_logB a ha (Nat.pos_of_ne_zero ha0)

theorem mulT_invT_cancel (a : Nat) (ha0 : a ≠ 0) : mulT a (divT 1 a) = 1 := by
  rw [divT_of_ne (by decide), mulT_of_ne ha0 (expB_emod_ne_zero _), logB_expB_emod, logB_one]
  rw [show (logB a + (0 - logB a) % 255) % 255 = 0 by omega]
  simpa using expB_zero

/-! ### Distributivity of `mulT` over XOR

The `EXP` table lists the powers of the generator `0x03` in GF(2^8) with
the `0x11b` reduction polynomial.  We verify (255 table cases) that each
entry arises from the previous one by structural multiplication by `0x03`,
then obtain GF(2)-linearity of multiplication by induction on the
discrete logarithm — no large exhaustive check is needed. -/

/-- Structural doubling in GF(2^8): shift left and reduce by `0x11b`. -/
def xtime (x : Nat) : Nat :=
  if x.testBit 7 then (x <<< 1) ^^^ 283 else x <<< 1

/-- Structural multiplication by the generator `0x03 = 2 + 1`. -/
def p3 (x : Nat) : Nat := x ^^^ xtime x

theorem expB_succ : ∀ w < 255, expB ((w + 1) % 255) = p3 (expB w) := by decide

/-- Iterated multiplication by the generator. -/
def mulE : Nat → Nat → Nat
  | 0, x => x
  | u + 1, x => p3 (mulE u x)

theorem shiftLeft_one_xor (x y : Nat) : (x ^^^ y) <<< 1 = x <<< 1 ^^^ y <<< 1 := by
  apply Nat.eq_of_testBit_eq
  intro i
  simp [Nat.testBit_shiftLeft, Nat.testBit_xor, Bool.and_xor_distrib_left]

theorem xor_xor_cancel_right (x y c : Nat) : (x ^^^ c) ^^^ (y ^^^ c) = x ^^^ y := by
  apply Nat.eq_of_testBit_eq
  intro i
  simp [Nat.testBit_xor]
  cases x.testBit i <;> cases y.testBit i <;> cases c.testBit i <;> rfl

theorem xtime_xor (x y : Nat) : xtime (x ^^^ y) = xtime x ^^^ xtime y := by
  unfold xtime
  rw [Nat.testBit_xor]
  cases hx : x.testBit 7 <;> cases hy : y.testBit 7 <;>
    simp only [Bool.xor_false, Bool.xor_true, Bool.false_xor, Bool.true_xor, Bool.not_true,
      Bool.not_false, Bool.false_eq_true, if_true, if_false, eq_self_iff_true,
      shiftLeft_one_xor] <;>
    (apply Nat.eq_of_testBit_eq
     intro i
     simp only [Nat.testBit_xor]
     cases (x <<< 1).testBit i <;> cases (y <<< 1).testBit i <;>
       cases (283 : Nat).testBit i <;> rfl)

theorem p3_xor (x y : Nat) : p3 (x ^^^ y) = p3 x ^^^ p3 y := by
  unfold p3
  rw [xtime_xor]
  apply Nat.eq_of_testBit_eq
  intro i
  simp only [Nat.testBit_xor]
  cases x.testBit i <;> cases y.testBit i <;>
    cases (xtime x).testBit i <;> cases (xtime y).testBit i <;> rfl

theorem mulE_xor (u x y : Nat) : mulE u (x ^^^ y) = mulE u x ^^^ mulE u y := by
  induction u with
  | zero => rfl
  | succ u ih => rw [mulE, mulE, mulE, ih, p3_xor]

theorem p3_zero : p3 0 = 0 := by decide

theorem mulE_zero (u : Nat) : mulE u 0 = 0 := by
  induction u with
  | zero => rfl
  | succ u ih => rw [mulE, ih, p3_zero]

theorem mulE_eq_expB (u : Nat) :
    ∀ x, x < 256 → x ≠ 0 → mulE u x = expB (((u : Int) + logB x) % 255).toNat := by
  induction u with
  | zero =>
    intro x hx hx0
    have h0 : 0 ≤ logB x := logB_nonneg x
    have h1 : logB x ≤ 254 := logB_le x hx
    rw [mulE, show ((0 : Nat) + logB x : Int) % 255 = logB x by omega]
    exact (expB_logB x hx (Nat.pos_of_ne_zero hx0)).symm
  | succ u ih =>
    intro x hx hx0
    rw [mulE, ih x hx hx0]
    have h1 := emod255_nonneg ((u : Int) + logB x)
    have h2 := emod255_lt ((u : Int) + logB x)
    rw [← expB_succ (((u : Int) + logB x) % 255).toNat (by omega)]
    congr 1
    omega

theorem mulT_eq_mulE (a x : Nat) (ha : a < 256) (ha0 : a ≠ 0) (hx : x < 256) :
    mulT a x = mulE (logB a).toNat x := by
  by_cases hx0 : x = 0
  · subst hx0
    rw [mulT_zero_right, mulE_zero]
  · rw [mulT_of_ne ha0 hx0, mulE_eq_expB _ x hx hx0, Int.toNat_of_nonneg (logB_nonneg a)]

/-- GF(2)-linearity of field multiplication: `mulT a` distributes over XOR. -/
theorem mulT_xor (a x y : Nat) (ha : a < 256) (hx : x < 256) (hy : y < 256) :
    mulT a (x ^^^ y) = mulT a x ^^^ mulT a y := by
  by_cases ha0 : a = 0
  · subst ha0
    simp [mulT]
  · have hxy : x ^^^ y < 256 := @Nat.xor_lt_two_pow x y 8 hx hy
    rw [mulT_eq_mulE a _ ha ha0 hxy, mulT_eq_mulE a x ha ha0 hx, mulT_eq_mulE a y ha ha0 hy,
      mulE_xor]

/-! ## GF(2^8) as a Lean `Field`

Bytes with XOR addition and table multiplication form a field; this lets
us invoke Mathlib Lagrange interpolation for the cryptographic roundtrip. -/

structure GF where
  val : Nat
  isLt : val < 256

theorem GF.ext {a b : GF} (h : a.val = b.val) : a = b := by
  cases a
  cases b
  simpa using h

instance : DecidableEq GF := fun a b =>
  decidable_of_iff (a.val = b.val) ⟨GF.ext, fun h => h ▸ rfl⟩

theorem xor_lt_256 {x y : Nat} (hx : x < 256) (hy : y < 256) : x ^^^ y < 256 :=
  @Nat.xor_lt_two_pow x y 8 hx hy

instance : Zero GF := ⟨⟨0, by decide⟩⟩

instance : One GF := ⟨⟨1, by decide⟩⟩

instance : Add GF := ⟨fun a b => ⟨a.val ^^^ b.val, xor_lt_256 a.isLt b.isLt⟩⟩

instance : Neg GF := ⟨fun a => a⟩

instance : Mul GF := ⟨fun a b => ⟨mulT a.val b.val, mulT_lt _ _⟩⟩

instance : Inv GF :=
  ⟨fun a => if a.val = 0 then ⟨0, by decide⟩ else ⟨divT 1 a.val, divT_lt _ _⟩⟩

theorem GF.add_val (a b : GF) : (a + b).val = a.val ^^^ b.val := rfl

theorem GF.mul_val (a b : GF) : (a * b).val = mulT a.val b.val := rfl

theorem GF.neg_val (a : GF) : (-a).val = a.val := rfl

theorem GF.zero_val : (0 : GF).val = 0 := rfl

theorem GF.one_val : (1 : GF).val = 1 := rfl

theorem GF.val_ne_zero {a : GF} (h : a ≠ 0) : a.val ≠ 0 := by
  intro hv
  exact h (GF.ext hv)

instance : CommRing GF where
  add := (· + ·)
  add_assoc a b c := GF.ext (Nat.xor_assoc a.val b.val c.val)
  zero := 0
  zero_add a := GF.ext (Nat.zero_xor a.val)
  add_zero a := GF.ext (Nat.xor_zero a.val)
  add_comm a b := GF.ext (Nat.xor_comm a.val b.val)
  mul := (· * ·)
  left_distrib a b c := GF.ext (mulT_xor a.val b.val c.val a.isLt b.isLt c.isLt)
  right_distrib a b c := GF.ext (by
    show mulT (a.val ^^^ b.val) c.val = mulT a.val c.val ^^^ mulT b.val c.val
    rw [mulT_comm _ c.val, mulT_comm a.val c.val, mulT_comm b.val c.val]
    exact mulT_xor c.val a.val b.val c.isLt a.isLt b.isLt)
  zero_mul a := GF.ext (mulT_zero_left a.val)
  mul_zero a := GF.ext (mulT_zero_right a.val)
  mul_assoc a b c := GF.ext (mulT_assoc a.val b.val c.val a.isLt b.isLt c.isLt)
  one := 1
  one_mul a := GF.ext (one_mulT a.val a.isLt)
  mul_one a := GF.ext (by
    show mulT a.val 1 = a.val
    rw [mulT_comm]
    exact one_mulT a.val a.isLt)
  mul_comm a b := GF.ext (mulT_comm a.val b.val)
  neg a := -a
  neg_add_cancel a := GF.ext (Nat.xor_self a.val)
  nsmul := nsmulRec
  zsmul := zsmulRec

instance : Field GF where
  inv a := a⁻¹
  exists_pair_ne := ⟨0, 1, fun h => by
    have := congrArg GF.val h
    simp [GF.zero_val, GF.one_val] at this⟩
  mul_inv_cancel a h := GF.ext (by
    have hv : a.val ≠ 0 := GF.val_ne_zero h
    show mulT a.val (if a.val = 0 then (⟨0, by decide⟩ : GF) else ⟨divT 1 a.val, divT_lt _ _⟩).val
      = 1
    rw [if_neg hv]
    exact mulT_invT_cancel a.val hv)
  inv_zero := rfl
  nnqsmul := _
  qsmul := _

/-- In GF(2^8) every element is its own additive inverse. -/
theorem GF.neg_eq (a : GF) : -a = a := rfl

/-! ## `poly.rs`: evaluation, generation, interpolation -/

/-- Embeds `poly::eval`: Horner evaluation
`p.iter().rev().fold(0, |res, &v| mul(res, x) ^ v)`. -/
def eval (p : List Nat) (x : Nat) : Nat :=
  p.reverse.foldl (fun res v => mul res x ^^^ v) 0

/-- Models a `Rng + CryptoRng` source: an unbounded byte stream plus a
cursor.  `fill_bytes` consumes one stream draw per buffer position and
`gen_range(1, 255)` consumes one draw, yielding a value in `[1, 254]`
(every such value arises from a suitable stream, and every stream yields
such a value, so quantifying over `RngState` models quantifying over
randomness sources). -/
structure RngState where
  stream : Nat → Nat
  pos : Nat

/-- Model of `rng.fill_bytes` on a buffer of `count` bytes. -/
def fill_bytes (r : RngState) (count : Nat) : List Nat × RngState :=
  ((List.range count).map (fun i => r.stream (r.pos + i) % 256), ⟨r.stream, r.pos + count⟩)

/-- Model of `rng.gen_range(1, 255)`: a draw from the half-open range
`[1, 255)`. -/
def gen_range_1_255 (r : RngState) : Nat × RngState :=
  (r.stream r.pos % 254 + 1, ⟨r.stream, r.pos + 1⟩)

/-- Embeds `poly::generate`: `vec![0; n + 1]`, `p[0] = y`, then
`rng.fill_bytes(&mut p[1..n])` — which panics (`none` here) when the slice
start `1` exceeds the slice end `n`, i.e. exactly when `n = 0` — and
finally `p[n] = rng.gen_range(1, 255)`. -/
def generate (n : Nat) (y : Nat) (rng : RngState) : Option (List Nat × RngState) :=
  if n < 1 then none
  else
    let br := fill_bytes rng (n - 1)
    let gr := gen_range_1_255 br.2
    some (y :: (br.1 ++ [gr.1]), gr.2)

/-- Embeds `poly::y_intercept` (Lagrange interpolation at x = 0), with the
enumerate-and-skip-the-diagonal loop structure of the source; a `div`
panic on coincident x-values propagates as `none`. -/
def y_intercept (points : List (Nat × Nat)) : Option Nat :=
  points.enum.foldlM
    (fun value iax =>
      (points.enum.foldlM
        (fun weight jbx =>
          if iax.fst ≠ jbx.fst then
            (div jbx.snd.fst (iax.snd.fst ^^^ jbx.snd.fst)).map (fun d => mul weight d)
          else
            some weight)
        1).map
        (fun weight => value ^^^ mul weight iax.snd.snd))
    0

/-! ## `lib.rs`: `split` and `combine` -/

/-- State-threading of `generate` over the secret bytes: the `map` closure
in `split` borrows `rng` mutably, so the per-byte polynomials are
generated sequentially. -/
def genPolys (k1 : Nat) (secret : List Nat) (rng : RngState) :
    Option (List (List Nat) × RngState) :=
  match secret with
  | [] => some ([], rng)
  | b :: rest => do
    let pr ← generate k1 b rng
    let psr ← genPolys k1 rest pr.2
    some (pr.1 :: psr.1, psr.2)

/-- Embeds `sss::split`.  The returned `HashMap` is modelled as its
association list; `split` produces exactly the keys `1..=n`.  The byte
subtraction `k - 1` is `Nat` subtraction (all claims have `k ≥ 1`). -/
def split (n k : Nat) (secret : List Nat) (rng : RngState) :
    Option (List (Nat × List Nat)) := do
  let pr ← genPolys (k - 1) secret rng
  some ((List.range' 1 n).map (fun id => (id, pr.1.map (fun p => eval p id))))

/-- Embeds `sss::combine`.  The `HashMap` argument is modelled as its
association list in an arbitrary iteration order (`HashMap` order is
unspecified — theorems quantify over the order where it matters).
`.values().next().unwrap()` on an empty map and the
`panic!("mismatched share lengths")` are `none`; the indexing `v[i]` is
within bounds thanks to the length check, hence `getD`. -/
def combine (shares : List (Nat × List Nat)) : Option (List Nat) := do
  let first ← shares.head?
  let len := first.2.length
  if shares.any (fun s => s.2.length ≠ len) then none
  else
    (List.range len).mapM
      (fun i => y_intercept (shares.map (fun s => (s.1, s.2.getD i 0))))

/-! ## Characterizing `y_intercept`: success and failure -/

theorem div_isSome {e a : Nat} (ha : a ≠ 0) : div e a = some ((div e a).getD 0) := by
  unfold div
  rw [if_neg ha]
  by_cases he : e = 0 <;> simp [he]

/-- Pure form of the inner weight loop with 0-defaulted division. -/
def innerF (i ax : Nat) (en : List (Nat × (Nat × Nat))) : Nat :=
  en.foldl
    (fun w jbx =>
      if i ≠ jbx.fst then mul w ((div jbx.snd.fst (ax ^^^ jbx.snd.fst)).getD 0) else w)
    1

/-- Pure form of `y_intercept` under pairwise-distinct x-values. -/
def yiF (points : List (Nat × Nat)) : Nat :=
  points.enum.foldl
    (fun value iax => value ^^^ mul (innerF iax.fst iax.snd.fst points.enum) iax.snd.snd)
    0

theorem inner_foldlM_ok (i ax : Nat) :
    ∀ (en : List (Nat × (Nat × Nat))) (w : Nat),
      (∀ jp ∈ en, jp.fst ≠ i → ax ≠ jp.snd.fst) →
      en.foldlM
        (fun weight jbx =>
          if i ≠ jbx.fst then
            (div jbx.snd.fst (ax ^^^ jbx.snd.fst)).map (fun d => mul weight d)
          else
            some weight)
        w
      = some (en.foldl
          (fun w jbx =>
            if i ≠ jbx.fst then mul w ((div jbx.snd.fst (ax ^^^ jbx.snd.fst)).getD 0) else w)
          w) := by
  intro en
  induction en with
  | nil => intro w _; rfl
  | cons jp en ih =>
    intro w h
    rw [List.foldlM_cons, List.foldl_cons]
    by_cases hij : i = jp.fst
    · rw [if_neg (not_not_intro hij), if_neg (not_not_intro hij)]
      exact ih w (fun q hq => h q (List.mem_cons_of_mem _ hq))
    · rw [if_pos hij, if_pos hij]
      have hax : ax ≠ jp.snd.fst := h jp (List.mem_cons_self _ _) (fun hc => hij hc.symm)
      have hxor : ax ^^^ jp.snd.fst ≠ 0 := by
        rw [Ne, Nat.xor_eq_zero]
        exact hax
      rw [div_isSome hxor]
      simp only [Option.map_some', Option.getD_some, Option.bind_eq_bind, Option.some_bind]
      exact ih _ (fun q hq => h q (List.mem_cons_of_mem _ hq))

theorem outer_foldlM_ok (points : List (Nat × Nat)) :
    ∀ (en : List (Nat × (Nat × Nat))) (value : Nat),
      (∀ ip ∈ en, ∀ jp ∈ points.enum, jp.fst ≠ ip.fst → ip.snd.fst ≠ jp.snd.fst) →
      en.foldlM
        (fun value iax =>
          (points.enum.foldlM
            (fun weight jbx =>
              if iax.fst ≠ jbx.fst then
                (div jbx.snd.fst (iax.snd.fst ^^^ jbx.snd.fst)).map (fun d => mul weight d)
              else
                some weight)
            1).map
            (fun weight => value ^^^ mul weight iax.snd.snd))
        value
      = some (en.foldl
          (fun value iax => value ^^^ mul (innerF iax.fst iax.snd.fst points.enum) iax.snd.snd)
          value) := by
  intro en
  induction en with
  | nil => intro value _; rfl
  | cons ip en ih =>
    intro value h
    rw [List.foldlM_cons, List.foldl_cons,
      inner_foldlM_ok ip.fst ip.snd.fst points.enum 1
        (fun jp hjp hne => h ip (List.mem_cons_self _ _) jp hjp hne)]
    simp only [Option.map_some', Option.bind_eq_bind, Option.some_bind]
    exact ih _ (fun q hq => h q (List.mem_cons_of_mem _ hq))

/-- With pairwise-distinct x-values, `y_intercept` succeeds and computes
the pure fold `yiF`. -/
theorem y_intercept_eq_some (points : List (Nat × Nat))
    (hnd : (points.map Prod.fst).Nodup) :
    y_intercept points = some (yiF points) := by
  unfold y_intercept yiF
  apply outer_foldlM_ok points points.enum 0
  intro ip hip jp hjp hne hax
  rw [List.mem_enum_iff_getElem?] at hip hjp
  have hiplen : ip.fst < points.length := by
    by_contra hge
    rw [List.getElem?_eq_none (Nat.le_of_not_lt hge)] at hip
    exact Option.noConfusion hip
  have hjplen : jp.fst < points.length := by
    by_contra hge
    rw [List.getElem?_eq_none (Nat.le_of_not_lt hge)] at hjp
    exact Option.noConfusion hjp
  have hmi : (points.map Prod.fst)[ip.fst]? = some ip.snd.fst := by
    rw [List.getElem?_map, hip]
    rfl
  have hmj : (points.map Prod.fst)[jp.fst]? = some jp.snd.fst := by
    rw [List.getElem?_map, hjp]
    rfl
  rw [← hax] at hmj
  have hnd2 := List.nodup_iff_getElem?_ne_getElem?.mp hnd
  rcases Nat.lt_trichotomy ip.fst jp.fst with hlt | heq | hgt
  · exact hnd2 ip.fst jp.fst hlt (by simpa using hjplen) (hmi.trans hmj.symm)
  · exact hne heq.symm
  · exact hnd2 jp.fst ip.fst hgt (by simpa using hiplen) (hmj.trans hmi.symm)

theorem foldlM_none_of_mem {α β : Type} (g : β → α → Option β) (l : List α) (a : α)
    (ha : a ∈ l) (hg : ∀ b, g b a = none) : ∀ b, l.foldlM g b = none := by
  induction l with
  | nil => cases ha
  | cons x l ih =>
    intro b
    rw [List.foldlM_cons]
    rcases List.mem_cons.mp ha with rfl | hmem
    · rw [hg b]
      rfl
    · cases hx : g b x
      · rfl
      · exact ih hmem _

theorem inner_foldlM_none (i ax : Nat) :
    ∀ (en : List (Nat × (Nat × Nat))),
      (∃ jp ∈ en, jp.fst ≠ i ∧ ax = jp.snd.fst) →
      ∀ w,
      en.foldlM
        (fun weight jbx =>
          if i ≠ jbx.fst then
            (div jbx.snd.fst (ax ^^^ jbx.snd.fst)).map (fun d => mul weight d)
          else
            some weight)
        w = none := by
  intro en
  induction en with
  | nil => rintro ⟨jp, hjp, _⟩; cases hjp
  | cons jp en ih =>
    rintro ⟨q, hq, hqne, hqax⟩ w
    rw [List.foldlM_cons]
    rcases List.mem_cons.mp hq with rfl | hmem
    · rw [if_pos (fun hc => hqne hc.symm), hqax, Nat.xor_self]
      rw [show div q.snd.fst 0 = none from rfl]
      rfl
    · by_cases hij : i = jp.fst
      · rw [if_neg (not_not_intro hij)]
        exact ih ⟨q, hmem, hqne, hqax⟩ w
      · rw [if_pos hij]
        by_cases hax : ax = jp.snd.fst
        · rw [hax, Nat.xor_self, show div jp.snd.fst 0 = none from rfl]
          rfl
        · have hxor : ax ^^^ jp.snd.fst ≠ 0 := by
            rw [Ne, Nat.xor_eq_zero]
            exact hax
          rw [div_isSome hxor]
          simp only [Option.map_some', Option.bind_eq_bind, Option.some_bind]
          exact ih ⟨q, hmem, hqne, hqax⟩ _

/-- With a repeated x-value at two distinct positions, `y_intercept`
hits the divide-by-zero panic. -/
theorem y_intercept_eq_none (points : List (Nat × Nat))
    (hnd : ¬ (points.map Prod.fst).Nodup) :
    y_intercept points = none := by
  rw [List.nodup_iff_getElem?_ne_getElem?] at hnd
  push_neg at hnd
  obtain ⟨i, j, hij, hj, heq⟩ := hnd
  have hjlen : j < points.length := by simpa using hj
  have hilen : i < points.length := lt_trans hij hjlen
  rw [List.getElem?_eq_getElem (by simpa using hilen),
    List.getElem?_eq_getElem (by simpa using hjlen), Option.some_inj] at heq
  simp only [List.getElem_map] at heq
  unfold y_intercept
  apply foldlM_none_of_mem _ _ (i, points[i])
  · rw [List.mem_enum_iff_getElem?, List.getElem?_eq_getElem hilen]
  · intro value
    rw [inner_foldlM_none i (points[i]).fst points.enum
      ⟨(j, points[j]), by rw [List.mem_enum_iff_getElem?, List.getElem?_eq_getElem hjlen],
        fun hc => Nat.ne_of_lt hij hc.symm, heq⟩ 1]
    rfl

/-! ## Byte-boundedness of the pure interpolation fold -/

theorem yiF_lt (points : List (Nat × Nat)) : yiF points < 256 := by
  unfold yiF
  have h : ∀ (en : List (Nat × (Nat × Nat))) (v : Nat), v < 256 →
      en.foldl
        (fun value iax => value ^^^ mul (innerF iax.fst iax.snd.fst points.enum) iax.snd.snd)
        v < 256 := by
    intro en
    induction en with
    | nil => intro v hv; exact hv
    | cons p en ih =>
      intro v hv
      rw [List.foldl_cons]
      exact ih _ (xor_lt_256 hv (mul_lt _ _))
  exact h _ 0 (by decide)

/-! ## Claim theorems: C2, C3, C5, C7 -/

/-- C2: `generate(0, y, rng)` panics — the slice `p[1..0]` has its start
after its end — and therefore `split(n, 1, secret, rng)` panics for every
non-empty secret, even though the spec precondition permits `K = 1`. -/
theorem c2_generate_degree_zero_panics :
    (∀ (y : Nat) (rng : RngState), generate 0 y rng = none) ∧
    (∀ (n : Nat) (secret : List Nat) (rng : RngState), secret ≠ [] →
      split n 1 secret rng = none) := by
  constructor
  · intro y rng
    rfl
  · intro n secret rng hne
    cases secret with
    | nil => exact absurd rfl hne
    | cons b rest => rfl

theorem c2_generate_degree_zero_panics_witness :
    generate 0 7 ⟨fun _ => 0, 0⟩ = none ∧ split 5 1 [1, 2] ⟨fun _ => 0, 0⟩ = none :=
  ⟨c2_generate_degree_zero_panics.1 7 ⟨fun _ => 0, 0⟩,
    c2_generate_degree_zero_panics.2 5 [1, 2] ⟨fun _ => 0, 0⟩ (by decide)⟩

/-- C3: for bytes `a`, `b` with `b ≠ 0`, `mul(div(a, b), b) = a` and
`div(mul(a, b), b) = a`. -/
theorem c3_mul_div_inverse (a b : Nat) (ha : a < 256) (hb : b < 256) (hb0 : b ≠ 0) :
    (∃ d, div a b = some d ∧ mul d b = a) ∧ div (mul a b) b = some a := by
  constructor
  · refine ⟨divT a b, div_eq_divT a b ha hb hb0, ?_⟩
    rw [mul_eq_mulT _ b (divT_lt a b) hb]
    exact mulT_divT_cancel a b ha hb0
  · rw [mul_eq_mulT a b ha hb, div_eq_divT _ b (mulT_lt a b) hb hb0,
      divT_mulT_cancel a b ha hb0]

theorem c3_mul_div_inverse_witness :
    (∃ d, div 90 21 = some d ∧ mul d 21 = 90) ∧ div (mul 90 21) 21 = some 90 :=
  c3_mul_div_inverse 90 21 (by decide) (by decide) (by decide)

/-- C5: `div` fails with the divide-by-zero panic exactly when the divisor
is zero (for every dividend), and `div(0, b) = 0` for nonzero `b`. -/
theorem c5_div_by_zero (a b : Nat) :
    (div a b = none ↔ b = 0) ∧ (b ≠ 0 → div 0 b = some 0) := by
  refine ⟨div_isNone_iff a b, fun hb => ?_⟩
  simp [div, hb]

theorem c5_div_by_zero_witness :
    (div 90 0 = none ∧ div 90 21 ≠ none) ∧ div 0 21 = some 0 := by
  refine ⟨⟨(c5_div_by_zero 90 0).1.mpr rfl, fun hc => ?_⟩, (c5_div_by_zero 90 21).2 (by decide)⟩
  have := (c5_div_by_zero 90 21).1.mp hc
  simp at this

/-- C7: `y_intercept` fails with the domain error exactly when two input
x-values coincide at distinct positions; with pairwise-distinct x-values it
returns a byte without error. -/
theorem c7_y_intercept_domain (points : List (Nat × Nat)) :
    (y_intercept points = none ↔ ¬ (points.map Prod.fst).Nodup) ∧
    ((points.map Prod.fst).Nodup → ∃ b, b < 256 ∧ y_intercept points = some b) := by
  constructor
  · constructor
    · intro hnone hnd
      rw [y_intercept_eq_some points hnd] at hnone
      exact Option.noConfusion hnone
    · exact y_intercept_eq_none points
  · intro hnd
    exact ⟨yiF points, yiF_lt points, y_intercept_eq_some points hnd⟩

theorem c7_y_intercept_domain_witness :
    y_intercept [(1, 1), (2, 2), (3, 3)] ≠ none ∧ y_intercept [(1, 5), (1, 6)] = none := by
  refine ⟨fun hc => ?_, (c7_y_intercept_domain [(1, 5), (1, 6)]).1.mpr (by decide)⟩
  obtain ⟨b, _, hb⟩ := (c7_y_intercept_domain [(1, 1), (2, 2), (3, 3)]).2 (by decide)
  rw [hb] at hc
  exact Option.noConfusion hc

/-! ## Structure of `generate`, `genPolys` and `split` -/

theorem snoc_getD (y r : Nat) (bs : List Nat) (n : Nat) (h : bs.length = n) :
    (y :: (bs ++ [r])).getD (n + 1) 0 = r := by
  subst h
  rw [List.getD_cons_succ, List.getD_append_right bs [r] 0 bs.length (Nat.le_refl _),
    Nat.sub_self, List.getD_cons_zero]

theorem generate_spec (n y : Nat) (rng : RngState) (p : List Nat) (rng2 : RngState)
    (h : generate n y rng = some (p, rng2)) :
    1 ≤ n ∧ p.length = n + 1 ∧ p.headD 0 = y ∧ p.getD n 0 ≠ 0 ∧
     (y < 256 → ∀ c ∈ p, c < 256) := by
  unfold generate at h
  by_cases hn : n < 1
  · rw [if_pos hn] at h
    exact Option.noConfusion h
  · rw [if_neg hn] at h
    obtain ⟨m, rfl⟩ : ∃ m, n = m + 1 := ⟨n - 1, by omega⟩
    simp only [fill_bytes, gen_range_1_255, Option.some_inj, Prod.mk.injEq] at h
    obtain ⟨rfl, -⟩ := h
    refine ⟨by omega, ?_, rfl, ?_, ?_⟩
    · simp only [List.length_cons, List.length_append, List.length_map,
        List.length_range, List.length_singleton, List.length_nil]
      omega
    · rw [snoc_getD _ _ _ m (by
        simp only [List.length_map, List.length_range]
        omega)]
      omega
    · intro hy c hc
      rcases List.mem_cons.mp hc with rfl | hc2
      · exact hy
      · rcases List.mem_append.mp hc2 with hbs | hr
        · obtain ⟨i, -, rfl⟩ := List.mem_map.mp hbs
          exact Nat.mod_lt _ (by decide)
        · rcases List.mem_singleton.mp hr with rfl
          have := Nat.mod_lt (rng.stream (rng.pos + (m + 1 - 1))) (show 0 < 254 by decide)
          omega

theorem genPolys_spec :
    ∀ (secret : List Nat) (k1 : Nat) (rng : RngState) (polys : List (List Nat))
      (rng2 : RngState),
      genPolys k1 secret rng = some (polys, rng2) →
      List.Forall₂
        (fun b p => p.length = k1 + 1 ∧ p.headD 0 = b ∧ p.getD k1 0 ≠ 0 ∧
          (b < 256 → ∀ c ∈ p, c < 256))
        secret polys := by
  intro secret
  induction secret with
  | nil =>
    intro k1 rng polys rng2 h
    simp only [genPolys, Option.some_inj, Prod.mk.injEq] at h
    obtain ⟨rfl, -⟩ := h
    exact List.Forall₂.nil
  | cons b rest ih =>
    intro k1 rng polys rng2 h
    simp only [genPolys] at h
    cases hg : generate k1 b rng with
    | none => rw [hg] at h; exact Option.noConfusion h
    | some pr =>
      rw [hg] at h
      simp only [Option.bind_eq_bind, Option.some_bind] at h
      cases hg2 : genPolys k1 rest pr.2 with
      | none => rw [hg2] at h; exact Option.noConfusion h
      | some psr =>
        rw [hg2] at h
        simp only [Option.bind_eq_bind, Option.some_bind, Option.some_inj,
          Prod.mk.injEq] at h
        obtain ⟨rfl, -⟩ := h
        obtain ⟨-, hlen, hhead, hlast, hbound⟩ :=
          generate_spec k1 b rng pr.1 pr.2 (by rw [Prod.mk.eta] <;> exact hg)
        exact List.Forall₂.cons ⟨hlen, hhead, hlast, hbound⟩ (ih k1 pr.2 psr.1 psr.2 (by rw [Prod.mk.eta] <;> exact hg2))

theorem split_shape (n k : Nat) (secret : List Nat) (rng : RngState)
    (out : List (Nat × List Nat)) (h : split n k secret rng = some out) :
    ∃ polys : List (List Nat),
      (∃ rng2, genPolys (k - 1) secret rng = some (polys, rng2)) ∧
      out = (List.range' 1 n).map (fun id => (id, polys.map (fun p => eval p id))) := by
  unfold split at h
  cases hg : genPolys (k - 1) secret rng with
  | none => rw [hg] at h; exact Option.noConfusion h
  | some pr =>
    rw [hg] at h
    simp only [Option.bind_eq_bind, Option.some_bind, Option.some_inj] at h
    exact ⟨pr.1, ⟨pr.2, by rw [Prod.mk.eta] <;> exact hg⟩, h.symm⟩

/-! ## Claim theorems: C4 and C8 -/

theorem generate_isSome (n y : Nat) (rng : RngState) (hn : 1 ≤ n) :
    ∃ p rng2, generate n y rng = some (p, rng2) := by
  unfold generate
  rw [if_neg (by omega : ¬ n < 1)]
  exact ⟨_, _, rfl⟩

/-- C4 counterexample: at degree 0 `generate` panics (the `p[1..0]` slice)
instead of returning a 1-coefficient vector, so the claim fails at `n = 0`. -/
theorem c4_degree_zero_counterexample :
    ¬ ∃ p rng2, generate 0 0 (⟨fun _ => 0, 0⟩ : RngState) = some (p, rng2) := by
  rintro ⟨p, rng2, h⟩
  exact Option.noConfusion h

/-- C4 (amended to degrees `n ≥ 1`): `generate` returns `n + 1`
coefficients, the first equal to the intercept and the last nonzero. -/
theorem c4_generate_poly_shape (n y : Nat) (rng : RngState) (hn : 1 ≤ n) :
    ∃ p rng2, generate n y rng = some (p, rng2) ∧
      p.length = n + 1 ∧ p.headD 0 = y ∧ p.getD n 0 ≠ 0 := by
  obtain ⟨p, rng2, hp⟩ := generate_isSome n y rng hn
  obtain ⟨-, h1, h2, h3, -⟩ := generate_spec n y rng p rng2 hp
  exact ⟨p, rng2, hp, h1, h2, h3⟩

theorem c4_generate_poly_shape_witness :
    ∃ p rng2, generate 2 50 (⟨fun _ => 0, 0⟩ : RngState) = some (p, rng2) ∧
      p.length = 3 ∧ p.headD 0 = 50 ∧ p.getD 2 0 ≠ 0 :=
  c4_generate_poly_shape 2 50 ⟨fun _ => 0, 0⟩ (by decide)

/-- C8: a successful `split` issues exactly the share IDs `1..n` in order
(ID 0 is never issued) and every share is as long as the secret. -/
theorem c8_split_ids_lengths (n k : Nat) (secret : List Nat) (rng : RngState)
    (out : List (Nat × List Nat)) (hk : 1 ≤ k)
    (h : split n k secret rng = some out) :
    out.map Prod.fst = List.range' 1 n ∧
    (∀ e ∈ out, 1 ≤ e.fst ∧ e.fst ≤ n) ∧
    (∀ e ∈ out, e.snd.length = secret.length) := by
  obtain ⟨polys, ⟨rng2, hgen⟩, rfl⟩ := split_shape n k secret rng out h
  have hpl : polys.length = secret.length :=
    (genPolys_spec secret (k - 1) rng polys rng2 hgen).length_eq.symm
  refine ⟨?_, ?_, ?_⟩
  · rw [List.map_map,
      show Prod.fst ∘ (fun id => (id, polys.map (fun p => eval p id))) = id from rfl,
      List.map_id]
  · intro e he
    obtain ⟨idv, hid, rfl⟩ := List.mem_map.mp he
    rw [List.mem_range'] at hid
    obtain ⟨i, hi, rfl⟩ := hid
    exact ⟨by omega, by omega⟩
  · intro e he
    obtain ⟨idv, -, rfl⟩ := List.mem_map.mp he
    simp [List.length_map, hpl]

theorem c8_split_ids_lengths_witness :
    ([(1, [43]), (2, [40]), (3, [41])] : List (Nat × List Nat)).map Prod.fst
      = List.range' 1 3 ∧
    (∀ e ∈ ([(1, [43]), (2, [40]), (3, [41])] : List (Nat × List Nat)),
      1 ≤ e.fst ∧ e.fst ≤ 3) ∧
    (∀ e ∈ ([(1, [43]), (2, [40]), (3, [41])] : List (Nat × List Nat)),
      e.snd.length = [42].length) :=
  c8_split_ids_lengths 3 2 [42] ⟨fun _ => 0, 0⟩ [(1, [43]), (2, [40]), (3, [41])]
    (by decide) (by decide)

/-! ## Claim C6: `combine` error behaviour -/

theorem mapM_some_of_forall {α β : Type} (g : α → Option β) :
    ∀ l : List α, (∀ a ∈ l, ∃ b, g a = some b) →
      ∃ out, l.mapM g = some out ∧ out.length = l.length := by
  intro l
  induction l with
  | nil => exact fun _ => ⟨[], rfl, rfl⟩
  | cons a l ih =>
    intro h
    obtain ⟨b, hb⟩ := h a (List.mem_cons_self _ _)
    obtain ⟨out, hout, hlen⟩ := ih (fun x hx => h x (List.mem_cons_of_mem _ hx))
    refine ⟨b :: out, ?_, by simp [hlen]⟩
    rw [List.mapM_cons, hb, hout]
    rfl

/-- C6: `combine` fails on an empty share map, fails when two shares have
different lengths, and otherwise (given the `HashMap` key-uniqueness
invariant) returns a byte sequence of the common share length. -/
theorem c6_combine_error_behaviour (shares : List (Nat × List Nat)) :
    (combine [] = (none : Option (List Nat))) ∧
    ((∃ e1 ∈ shares, ∃ e2 ∈ shares, e1.snd.length ≠ e2.snd.length) →
      combine shares = none) ∧
    (shares ≠ [] → (shares.map Prod.fst).Nodup →
      (∀ e1 ∈ shares, ∀ e2 ∈ shares, e1.snd.length = e2.snd.length) →
      ∃ out, combine shares = some out ∧ ∀ e ∈ shares, out.length = e.snd.length) := by
  refine ⟨rfl, ?_, ?_⟩
  · rintro ⟨e1, he1, e2, he2, hne⟩
    cases shares with
    | nil => cases he1
    | cons s0 rest =>
      have hany : (s0 :: rest).any (fun s => decide (s.2.length ≠ s0.2.length)) = true := by
        rw [List.any_eq_true]
        by_cases h1 : e1.snd.length = s0.2.length
        · exact ⟨e2, he2, by simp [h1 ▸ hne.symm]⟩
        · exact ⟨e1, he1, by simp [h1]⟩
      unfold combine
      simp only [List.head?, Option.bind_eq_bind, Option.some_bind, hany, if_true]
  · intro hne hnd hlen
    cases shares with
    | nil => exact absurd rfl hne
    | cons s0 rest =>
      have hany : (s0 :: rest).any (fun s => decide (s.2.length ≠ s0.2.length)) = false := by
        rw [List.any_eq_false]
        intro e he
        simp [hlen e he s0 (List.mem_cons_self _ _)]
      obtain ⟨out, hout, hol⟩ :=
        mapM_some_of_forall
          (fun i => y_intercept ((s0 :: rest).map (fun s => (s.1, s.2.getD i 0))))
          (List.range s0.2.length)
          (fun i _ => by
            have hnd2 : (((s0 :: rest).map (fun s => (s.1, s.2.getD i 0))).map Prod.fst).Nodup := by
              rw [List.map_map,
                show Prod.fst ∘ (fun s : Nat × List Nat => (s.1, s.2.getD i 0)) = Prod.fst
                  from rfl]
              exact hnd
            exact ⟨_, y_intercept_eq_some _ hnd2⟩)
      refine ⟨out, ?_, ?_⟩
      · unfold combine
        simp only [List.head?, Option.bind_eq_bind, Option.some_bind, hany,
          Bool.false_eq_true, if_false]
        exact hout
      · intro e he
        rw [hol, List.length_range]
        exact (hlen s0 (List.mem_cons_self _ _) e he)

theorem c6_combine_error_behaviour_witness :
    (combine [] = (none : Option (List Nat))) ∧
    combine [(1, [10, 20]), (2, [30])] = none ∧
    ∃ out, combine [(1, [64, 163]), (3, [194, 250])] = some out ∧ out.length = 2 := by
  have h1 := (c6_combine_error_behaviour [(1, [10, 20]), (2, [30])]).2.1
    ⟨(1, [10, 20]), by decide, (2, [30]), by decide, by decide⟩
  obtain ⟨out, hout, hlen⟩ := (c6_combine_error_behaviour [(1, [64, 163]), (3, [194, 250])]).2.2
    (by decide) (by decide) (by decide)
  exact ⟨(c6_combine_error_behaviour []).1, h1,
    ⟨out, hout, hlen (1, [64, 163]) (by decide)⟩⟩

/-! ## Bridging bytes to GF(2^8) -/

/-- Byte to field element (out-of-range values, which never occur, clamp
to 0). -/
def toGF (n : Nat) : GF := if h : n < 256 then ⟨n, h⟩ else ⟨0, by decide⟩

theorem toGF_val {n : Nat} (h : n < 256) : (toGF n).val = n := by
  unfold toGF
  rw [dif_pos h]

theorem toGF_of_val (g : GF) : toGF g.val = g := by
  apply GF.ext
  rw [toGF_val g.isLt]

theorem toGF_zero : toGF 0 = 0 := rfl

theorem div_getD_lt (e a : Nat) : (div e a).getD 0 < 256 := by
  unfold div
  by_cases ha : a = 0
  · simp [ha]
  · rw [if_neg ha]
    by_cases he : e = 0
    · simp [he]
    · rw [if_neg he]
      simp only [Option.getD_some]
      exact constant_exp_lt _

/-- `divT` agrees with field division. -/
theorem divT_toGF (x y : GF) (hy : y ≠ 0) : toGF (divT x.val y.val) = x / y := by
  have h1 : toGF (divT x.val y.val) * y = x := by
    apply GF.ext
    show mulT (toGF (divT x.val y.val)).val y.val = x.val
    rw [toGF_val (divT_lt _ _)]
    exact mulT_divT_cancel x.val y.val x.isLt (GF.val_ne_zero hy)
  exact (eq_div_iff hy).mpr h1

/-- The 0-defaulted `div` agrees with field division on bytes (both give 0
on a zero divisor). -/
theorem div_getD_toGF (e a : Nat) (he : e < 256) (ha : a < 256) :
    toGF ((div e a).getD 0) = toGF e / toGF a := by
  by_cases ha0 : a = 0
  · subst ha0
    rw [show div e 0 = none from rfl, toGF_zero, Option.getD_none, toGF_zero, div_zero]
  · rw [div_eq_divT e a he ha ha0, Option.getD_some]
    have hne : toGF a ≠ 0 := by
      intro hc
      have := congrArg GF.val hc
      rw [toGF_val ha, GF.zero_val] at this
      exact ha0 this
    have := divT_toGF (toGF e) (toGF a) hne
    rw [toGF_val he, toGF_val ha] at this
    exact this

/-- `mul` agrees with field multiplication on bytes. -/
theorem mul_toGF (e a : Nat) (he : e < 256) (ha : a < 256) :
    toGF (mul e a) = toGF e * toGF a := by
  apply GF.ext
  rw [toGF_val (mul_lt e a), GF.mul_val, toGF_val he, toGF_val ha]
  exact mul_eq_mulT e a he ha

/-! ## Coefficient lists as polynomials -/

/-- The polynomial with the given coefficient list (index = degree);
proof-side object only, hence noncomputable. -/
noncomputable def polyOf : List GF → Polynomial GF
  | [] => 0
  | c :: cs => Polynomial.C c + Polynomial.X * polyOf cs

theorem polyOf_nil : polyOf [] = 0 := rfl

theorem polyOf_cons (c : GF) (cs : List GF) :
    polyOf (c :: cs) = Polynomial.C c + Polynomial.X * polyOf cs := rfl

theorem polyOf_degree_lt : ∀ l : List GF, (polyOf l).degree < (l.length : Nat) := by
  intro l
  induction l with
  | nil =>
    rw [polyOf_nil, Polynomial.degree_zero]
    exact WithBot.bot_lt_coe _
  | cons c cs ih =>
    rw [polyOf_cons]
    apply lt_of_le_of_lt (Polynomial.degree_add_le _ _)
    rw [max_lt_iff]
    constructor
    · apply lt_of_le_of_lt Polynomial.degree_C_le
      rw [List.length_cons]
      exact_mod_cast WithBot.coe_lt_coe.mpr (Nat.succ_pos _)
    · rw [Polynomial.degree_mul, Polynomial.degree_X, List.length_cons]
      by_cases h0 : polyOf cs = 0
      · rw [h0, Polynomial.degree_zero]
        exact_mod_cast lt_of_le_of_lt (le_of_eq (by rfl)) (WithBot.bot_lt_coe _)
      · calc 1 + (polyOf cs).degree < 1 + (cs.length : Nat) := by
              exact_mod_cast (WithBot.add_lt_add_iff_left (by simp)).mpr ih
        _ = ((cs.length + 1 : Nat) : WithBot Nat) := by
              push_cast
              ring

/-! ## Horner evaluation agrees with polynomial evaluation -/

theorem horner_foldr (p : List Nat) (x : Nat) (hp : ∀ c ∈ p, c < 256) (hx : x < 256) :
    p.foldr (fun v res => mul res x ^^^ v) 0 = ((polyOf (p.map toGF)).eval (toGF x)).val := by
  induction p with
  | nil =>
    rw [List.foldr_nil, List.map_nil, polyOf_nil, Polynomial.eval_zero, GF.zero_val]
  | cons c cs ih =>
    rw [List.foldr_cons, List.map_cons, polyOf_cons, Polynomial.eval_add, Polynomial.eval_C,
      Polynomial.eval_mul, Polynomial.eval_X,
      ih (fun d hd => hp d (List.mem_cons_of_mem _ hd))]
    rw [show mul (((polyOf (cs.map toGF)).eval (toGF x)).val) x
        = (toGF x * (polyOf (cs.map toGF)).eval (toGF x)).val from by
      rw [GF.mul_val, toGF_val hx,
        mul_eq_mulT _ x ((polyOf (cs.map toGF)).eval (toGF x)).isLt hx, mulT_comm]]
    rw [GF.add_val, toGF_val (hp c (List.mem_cons_self _ _))]
    exact Nat.xor_comm _ _

/-- `poly::eval` is evaluation of the coefficient polynomial. -/
theorem eval_toGF (p : List Nat) (x : Nat) (hp : ∀ c ∈ p, c < 256) (hx : x < 256) :
    toGF (eval p x) = (polyOf (p.map toGF)).eval (toGF x) := by
  unfold eval
  simp only [List.foldl_reverse]
  rw [horner_foldr p x hp hx, toGF_of_val]

theorem polyOf_eval_zero (p : List Nat) (hp : ∀ c ∈ p, c < 256) :
    ((polyOf (p.map toGF)).eval 0).val = p.headD 0 := by
  cases p with
  | nil =>
    rw [List.map_nil, polyOf_nil, Polynomial.eval_zero, GF.zero_val]
    rfl
  | cons c cs =>
    rw [List.map_cons, polyOf_cons, Polynomial.eval_add, Polynomial.eval_C,
      Polynomial.eval_mul, Polynomial.eval_X, zero_mul, add_zero,
      toGF_val (hp c (List.mem_cons_self _ _))]
    rfl

/-! ## Folds over bytes as field sums and products -/

theorem foldl_xor_sum {α : Type} (t : α → GF) :
    ∀ (l : List α) (v : GF),
      l.foldl (fun acc e => acc ^^^ (t e).val) v.val = (v + (l.map t).sum).val := by
  intro l
  induction l with
  | nil =>
    intro v
    rw [List.foldl_nil, List.map_nil, List.sum_nil, add_zero]
  | cons a l ih =>
    intro v
    rw [List.foldl_cons, List.map_cons, List.sum_cons,
      show v.val ^^^ (t a).val = (v + t a).val from rfl, ih (v + t a), add_assoc]

theorem foldl_mul_prod {α : Type} (t : α → GF) (P : α → Prop) [DecidablePred P] :
    ∀ (l : List α) (w : GF),
      l.foldl (fun acc e => if P e then mul acc (t e).val else acc) w.val
        = (w * (l.map (fun e => if P e then t e else 1)).prod).val := by
  intro l
  induction l with
  | nil =>
    intro w
    rw [List.foldl_nil, List.map_nil, List.prod_nil, mul_one]
  | cons a l ih =>
    intro w
    rw [List.foldl_cons, List.map_cons, List.prod_cons]
    by_cases hP : P a
    · rw [if_pos hP, if_pos hP,
        show mul w.val (t a).val = (w * t a).val from by
          rw [GF.mul_val]
          exact mul_eq_mulT _ _ w.isLt (t a).isLt,
        ih (w * t a), mul_assoc]
    · rw [if_neg hP, if_neg hP, ih w, one_mul]

/-! ## `enum` as a function table -/

theorem enumFrom_eq_ofFn {α : Type} :
    ∀ (l : List α) (s : Nat),
      List.enumFrom s l = List.ofFn (fun i : Fin l.length => (s + i.val, l.get i)) := by
  intro l
  induction l with
  | nil => intro s; rfl
  | cons a l ih =>
    intro s
    rw [List.enumFrom_cons, List.ofFn_succ, ih (s + 1), List.cons.injEq]
    refine ⟨by simp, ?_⟩
    apply congrArg
    funext i
    refine Prod.ext ?_ ?_
    · show s + 1 + i.val = s + (i.val + 1)
      omega
    · rfl

theorem enum_eq_ofFn {α : Type} (l : List α) :
    l.enum = List.ofFn (fun i : Fin l.length => (i.val, l.get i)) := by
  rw [show l.enum = List.enumFrom 0 l from rfl, enumFrom_eq_ofFn]
  apply congrArg
  funext i
  refine Prod.ext ?_ rfl
  show 0 + i.val = i.val
  omega

/-! ## Skipping the diagonal as a product over `erase` -/

theorem prod_ite_ne {m : Nat} (i : Fin m) (d : Fin m → GF) :
    (∏ j : Fin m, if i ≠ j then d j else 1) = ∏ j in Finset.univ.erase i, d j := by
  rw [← Finset.mul_prod_erase Finset.univ (fun j => if i ≠ j then d j else 1)
    (Finset.mem_univ i), if_neg (not_not_intro rfl), one_mul]
  apply Finset.prod_congr rfl
  intro j hj
  rw [if_pos (fun hc => (Finset.mem_erase.mp hj).1 hc.symm)]

/-! ## Lagrange interpolation at zero over GF(2^8) -/

/-- Mathlib Lagrange interpolation specialised: evaluating the code-shaped
weighted sum of a low-degree polynomial's values recovers its value at 0
(in GF(2^8), subtraction is addition). -/
theorem lagrange_eval_zero (m : Nat) (v : Fin m → GF) (hv : Function.Injective v)
    (f : Polynomial GF) (hdeg : f.degree < (m : Nat)) :
    (∑ i : Fin m,
      (∏ j in Finset.univ.erase i, (v j / (v i + v j))) * f.eval (v i))
      = f.eval 0 := by
  have hvs : Set.InjOn v (Finset.univ : Finset (Fin m)) := fun a _ b _ h => hv h
  have hdeg2 : f.degree < ((Finset.univ : Finset (Fin m)).card : Nat) := by
    rw [Finset.card_univ, Fintype.card_fin]
    exact hdeg
  have hf := Lagrange.eq_interpolate hvs hdeg2
  conv_rhs => rw [hf]
  rw [Lagrange.interpolate_apply, Polynomial.eval_finset_sum]
  apply Finset.sum_congr rfl
  intro i _
  rw [Polynomial.eval_mul, Polynomial.eval_C, mul_comm]
  congr 1
  unfold Lagrange.basis
  rw [Polynomial.eval_prod]
  apply Finset.prod_congr rfl
  intro j _
  unfold Lagrange.basisDivisor
  rw [Polynomial.eval_mul, Polynomial.eval_C, Polynomial.eval_sub, Polynomial.eval_X,
    Polynomial.eval_C, zero_sub, GF.neg_eq, div_eq_mul_inv, mul_comm,
    sub_eq_add_neg, GF.neg_eq]

/-! ## The interpolation fold as a field sum -/

theorem innerF_lt (i ax : Nat) (en : List (Nat × (Nat × Nat))) : innerF i ax en < 256 := by
  unfold innerF
  have h : ∀ (l : List (Nat × (Nat × Nat))) (w : Nat), w < 256 →
      l.foldl
        (fun w jbx =>
          if i ≠ jbx.fst then mul w ((div jbx.snd.fst (ax ^^^ jbx.snd.fst)).getD 0) else w)
        w < 256 := by
    intro l
    induction l with
    | nil => exact fun w hw => hw
    | cons a l ih =>
      intro w hw
      rw [List.foldl_cons]
      by_cases hP : i ≠ a.fst
      · rw [if_pos hP]
        exact ih _ (mul_lt _ _)
      · rw [if_neg hP]
        exact ih _ hw
  exact h _ 1 (by decide)

theorem xor_toGF (a b : Nat) (ha : a < 256) (hb : b < 256) :
    toGF (a ^^^ b) = toGF a + toGF b := by
  apply GF.ext
  rw [toGF_val (xor_lt_256 ha hb), GF.add_val, toGF_val ha, toGF_val hb]

theorem innerF_toGF (en : List (Nat × (Nat × Nat))) (i ax : Nat) :
    toGF (innerF i ax en)
      = (en.map
          (fun e =>
            if i ≠ e.fst then toGF ((div e.snd.fst (ax ^^^ e.snd.fst)).getD 0) else 1)).prod := by
  unfold innerF
  have hfun : (fun (w : Nat) (jbx : Nat × (Nat × Nat)) =>
        if i ≠ jbx.fst then mul w ((div jbx.snd.fst (ax ^^^ jbx.snd.fst)).getD 0) else w)
      = (fun w jbx =>
        if i ≠ jbx.fst then
          mul w (toGF ((div jbx.snd.fst (ax ^^^ jbx.snd.fst)).getD 0)).val
        else w) := by
    funext w jbx
    rw [toGF_val (div_getD_lt _ _)]
  rw [hfun, show (1 : Nat) = (1 : GF).val from rfl,
    foldl_mul_prod (fun jbx => toGF ((div jbx.snd.fst (ax ^^^ jbx.snd.fst)).getD 0))
      (fun jbx => i ≠ jbx.fst) en 1, one_mul, toGF_of_val]

/-- The pure interpolation fold is the Lagrange weighted sum in GF(2^8). -/
theorem yiF_eq_sum (points : List (Nat × Nat))
    (hpts : ∀ q ∈ points, q.1 < 256 ∧ q.2 < 256) :
    yiF points
      = (∑ i : Fin points.length,
          (∏ j in Finset.univ.erase i,
            (toGF (points.get j).1 / (toGF (points.get i).1 + toGF (points.get j).1))) *
            toGF (points.get i).2).val := by
  unfold yiF
  rw [List.foldl_ext _
    (fun value iax =>
      value ^^^
        (toGF (innerF iax.fst iax.snd.fst points.enum) * toGF iax.snd.snd).val)
    0
    (fun acc iax hmem => by
      have hsnd : iax.snd ∈ points := by
        rw [List.mem_enum_iff_getElem?] at hmem
        exact List.getElem?_mem hmem
      congr 1
      rw [GF.mul_val, toGF_val (innerF_lt _ _ _), toGF_val (hpts _ hsnd).2]
      exact mul_eq_mulT _ _ (innerF_lt _ _ _) (hpts _ hsnd).2)]
  rw [show (0 : Nat) = (0 : GF).val from rfl,
    foldl_xor_sum
      (fun iax => toGF (innerF iax.fst iax.snd.fst points.enum) * toGF iax.snd.snd)
      points.enum 0,
    zero_add]
  congr 1
  rw [enum_eq_ofFn points, List.map_ofFn, List.sum_ofFn]
  apply Finset.sum_congr rfl
  intro i _
  rw [Function.comp_apply]
  show toGF (innerF i.val (points.get i).1
        (List.ofFn fun k : Fin points.length => (k.val, points.get k))) *
      toGF (points.get i).2 = _
  congr 1
  rw [innerF_toGF, List.map_ofFn, List.prod_ofFn,
    ← prod_ite_ne i
      (fun j => toGF (points.get j).1 / (toGF (points.get i).1 + toGF (points.get j).1))]
  apply Finset.prod_congr rfl
  intro j _
  rw [Function.comp_apply]
  show (if i.val ≠ j.val then
      toGF ((div (points.get j).1 ((points.get i).1 ^^^ (points.get j).1)).getD 0)
    else 1) = _
  by_cases hij : i = j
  · rw [if_neg (not_not_intro (congrArg Fin.val hij)), if_neg (not_not_intro hij)]
  · rw [if_pos (fun hc => hij (Fin.val_injective hc)), if_pos hij]
    have hxi : (points.get i).1 < 256 := (hpts _ (List.get_mem _ _ _)).1
    have hxj : (points.get j).1 < 256 := (hpts _ (List.get_mem _ _ _)).1
    rw [div_getD_toGF _ _ hxj (xor_lt_256 hxi hxj), xor_toGF _ _ hxi hxj]

/-! ## The interpolation theorem: `y_intercept` on polynomial samples -/

/-- On byte points with pairwise-distinct x-values which sample a
polynomial with at most as many coefficients as points, `y_intercept`
returns the constant coefficient. -/
theorem y_intercept_interpolates (points : List (Nat × Nat)) (p : List Nat)
    (hpts : ∀ q ∈ points, q.1 < 256 ∧ q.2 < 256)
    (hnd : (points.map Prod.fst).Nodup)
    (hp : ∀ c ∈ p, c < 256)
    (hplen : p.length ≤ points.length)
    (hyv : ∀ q ∈ points, q.2 = eval p q.1) :
    y_intercept points = some (p.headD 0) := by
  rw [y_intercept_eq_some points hnd, yiF_eq_sum points hpts]
  have hv : Function.Injective (fun i : Fin points.length => toGF (points.get i).1) := by
    intro a b hab
    by_contra hne
    have hx : (points.get a).1 = (points.get b).1 := by
      have h1 := congrArg GF.val hab
      rwa [toGF_val (hpts _ (List.get_mem _ _ _)).1,
        toGF_val (hpts _ (List.get_mem _ _ _)).1] at h1
    have hga : (points.map Prod.fst)[a.val]? = some (points.get a).1 := by
      rw [List.getElem?_map, List.getElem?_eq_getElem a.isLt]
      rfl
    have hgb : (points.map Prod.fst)[b.val]? = some (points.get b).1 := by
      rw [List.getElem?_map, List.getElem?_eq_getElem b.isLt]
      rfl
    have hnd2 := List.nodup_iff_getElem?_ne_getElem?.mp hnd
    rcases Nat.lt_trichotomy a.val b.val with h | h | h
    · exact hnd2 a.val b.val h (by simpa using b.isLt)
        (hga.trans (by rw [hx]; exact hgb.symm))
    · exact hne (Fin.ext h)
    · exact hnd2 b.val a.val h (by simpa using a.isLt)
        (hgb.trans (by rw [← hx]; exact hga.symm))
  have hdeg : (polyOf (p.map toGF)).degree < ((points.length : Nat) : WithBot Nat) := by
    apply lt_of_lt_of_le (polyOf_degree_lt _)
    rw [List.length_map]
    exact_mod_cast hplen
  have hsum := lagrange_eval_zero points.length (fun i => toGF (points.get i).1) hv
    (polyOf (p.map toGF)) hdeg
  refine congrArg some ?_
  calc (∑ i : Fin points.length,
        (∏ j in Finset.univ.erase i,
          (toGF (points.get j).1 / (toGF (points.get i).1 + toGF (points.get j).1))) *
          toGF (points.get i).2).val
      = (∑ i : Fin points.length,
        (∏ j in Finset.univ.erase i,
          (toGF (points.get j).1 / (toGF (points.get i).1 + toGF (points.get j).1))) *
          (polyOf (p.map toGF)).eval (toGF (points.get i).1)).val := by
        congr 1
        apply Finset.sum_congr rfl
        intro i _
        congr 1
        rw [hyv (points.get i) (List.get_mem _ _ _),
          eval_toGF p _ hp (hpts _ (List.get_mem _ _ _)).1]
    _ = ((polyOf (p.map toGF)).eval 0).val := by rw [hsum]
    _ = p.headD 0 := polyOf_eval_zero p hp

/-! ## Claim C1: the split/combine roundtrip -/

theorem eval_lt (p : List Nat) (x : Nat) (hp : ∀ c ∈ p, c < 256) (hx : x < 256) :
    eval p x < 256 := by
  unfold eval
  simp only [List.foldl_reverse]
  rw [horner_foldr p x hp hx]
  exact ((polyOf (p.map toGF)).eval (toGF x)).isLt

theorem mapM_eq_some_map {g : Nat → Option Nat} {h : Nat → Nat} :
    ∀ l : List Nat, (∀ i ∈ l, g i = some (h i)) → l.mapM g = some (l.map h) := by
  intro l
  induction l with
  | nil => intro _; rfl
  | cons a l ih =>
    intro hall
    rw [List.mapM_cons, hall a (List.mem_cons_self _ _),
      ih (fun i hi => hall i (List.mem_cons_of_mem _ hi))]
    rfl

theorem map_range_getD : ∀ l : List Nat, (List.range l.length).map (fun i => l.getD i 0) = l := by
  intro l
  induction l with
  | nil => rfl
  | cons c cs ih =>
    rw [List.length_cons, List.range_succ_eq_map, List.map_cons, List.map_map]
    rw [show (fun i => (c :: cs).getD i 0) ∘ Nat.succ = fun i => cs.getD i 0 from by
      funext i
      rw [Function.comp_apply, List.getD_cons_succ]]
    rw [ih]
    rfl

theorem getD_map_eval (polys : List (List Nat)) (x : Nat) (i : Nat)
    (hi : i < polys.length) :
    (polys.map (fun p => eval p x)).getD i 0 = eval (polys.get ⟨i, hi⟩) x := by
  rw [List.getD_eq_getElem?_getD, List.getElem?_map, List.getElem?_eq_getElem hi]
  rfl

/-- C1: combining at least K (pairwise-distinct-ID) shares out of any
successful `split(N, K, S, rng)` — taken in any order — reproduces S. -/
theorem c1_split_combine_roundtrip
    (secret : List Nat) (k n : Nat) (rng : RngState) (shares : List (Nat × List Nat))
    (hsec : ∀ b ∈ secret, b < 256)
    (hk : 1 ≤ k) (hkn : k ≤ n) (hn : n ≤ 255)
    (hsplit : split n k secret rng = some shares)
    (sub : List (Nat × List Nat))
    (hsub : ∀ e ∈ sub, e ∈ shares)
    (hnd : (sub.map Prod.fst).Nodup)
    (hsize : k ≤ sub.length) :
    combine sub = some secret := by
  obtain ⟨polys, ⟨rng2, hgen⟩, rfl⟩ := split_shape n k secret rng shares hsplit
  have hforall := genPolys_spec secret (k - 1) rng polys rng2 hgen
  have hpl : polys.length = secret.length := hforall.length_eq.symm
  have hentry : ∀ e ∈ sub, 1 ≤ e.fst ∧ e.fst ≤ n ∧
      e.snd = polys.map (fun p => eval p e.fst) := by
    intro e he
    obtain ⟨idv, hid, rfl⟩ := List.mem_map.mp (hsub e he)
    rw [List.mem_range'] at hid
    obtain ⟨j, hj, rfl⟩ := hid
    exact ⟨by omega, by omega, rfl⟩
  have hcoef : ∀ i (hi : i < polys.length), ∀ c ∈ polys.get ⟨i, hi⟩, c < 256 := by
    intro i hi c hc
    have hr := hforall.get (by omega : i < secret.length) hi
    exact hr.2.2.2 (hsec _ (List.get_mem _ _ _)) c hc
  have hklen : ∀ i (hi : i < polys.length), (polys.get ⟨i, hi⟩).length = k := by
    intro i hi
    have hr := hforall.get (by omega : i < secret.length) hi
    rw [hr.1]
    omega
  have hhead : ∀ i (hi : i < polys.length),
      (polys.get ⟨i, hi⟩).headD 0 = secret.get ⟨i, by omega⟩ := by
    intro i hi
    exact (hforall.get (by omega : i < secret.length) hi).2.1
  cases sub with
  | nil =>
    rw [List.length_nil] at hsize
    omega
  | cons s0 rest =>
    have hlen_e : ∀ e ∈ s0 :: rest, e.snd.length = polys.length := by
      intro e he
      rw [(hentry e he).2.2, List.length_map]
    have hs0 : s0.snd.length = polys.length := hlen_e s0 (List.mem_cons_self _ _)
    have hany : (s0 :: rest).any (fun s => decide (s.2.length ≠ s0.2.length)) = false := by
      rw [List.any_eq_false]
      intro e he
      simp [hlen_e e he, hs0]
    have hpos : ∀ i (hi : i < polys.length),
        y_intercept ((s0 :: rest).map (fun s => (s.1, s.2.getD i 0)))
          = some (secret.getD i 0) := by
      intro i hi
      have hres := y_intercept_interpolates
        ((s0 :: rest).map (fun s => (s.1, s.2.getD i 0)))
        (polys.get ⟨i, hi⟩)
        (by
          intro q hq
          obtain ⟨e, he, rfl⟩ := List.mem_map.mp hq
          obtain ⟨h1, h2, h3⟩ := hentry e he
          constructor
          · show e.fst < 256
            omega
          · show e.snd.getD i 0 < 256
            rw [h3, getD_map_eval polys e.fst i hi]
            exact eval_lt _ _ (hcoef i hi) (by omega))
        (by
          rw [List.map_map,
            show Prod.fst ∘ (fun s : Nat × List Nat => (s.1, s.2.getD i 0)) = Prod.fst
              from rfl]
          exact hnd)
        (hcoef i hi)
        (by
          rw [hklen i hi, List.length_map]
          exact hsize)
        (by
          intro q hq
          obtain ⟨e, he, rfl⟩ := List.mem_map.mp hq
          show e.snd.getD i 0 = eval (polys.get ⟨i, hi⟩) e.fst
          rw [(hentry e he).2.2, getD_map_eval polys e.fst i hi])
      rw [hres]
      congr 1
      rw [List.getD_eq_getElem?_getD, List.getElem?_eq_getElem (by omega : i < secret.length)]
      rw [Option.getD_some]
      rw [hhead i hi]
      rfl
    unfold combine
    simp only [List.head?, Option.bind_eq_bind, Option.some_bind, hany,
      Bool.false_eq_true, if_false]
    rw [hs0,
      mapM_eq_some_map (List.range polys.length)
        (fun i hi => hpos i (List.mem_range.mp hi)),
      show polys.length = secret.length from hpl, map_range_getD]

/-! ## Claim C1 witness, and the fast table form for concrete evaluation -/

theorem c1_split_combine_roundtrip_witness :
    combine [(3, [41]), (1, [43])] = some [42] :=
  c1_split_combine_roundtrip [42] 2 3 ⟨fun _ => 0, 0⟩ [(1, [43]), (2, [40]), (3, [41])]
    (by decide) (by decide) (by decide) (by decide) (by decide)
    [(3, [41]), (1, [43])] (by decide) (by decide) (by decide)

/-- Table-lookup form of the inner weight loop (kernel-fast). -/
def innerT (i ax : Nat) (en : List (Nat × (Nat × Nat))) : Nat :=
  en.foldl
    (fun w jbx =>
      if i ≠ jbx.fst then
        mulT w (if ax ^^^ jbx.snd.fst = 0 then 0 else divT jbx.snd.fst (ax ^^^ jbx.snd.fst))
      else w)
    1

/-- Table-lookup form of the interpolation fold (kernel-fast). -/
def yiT (points : List (Nat × Nat)) : Nat :=
  points.enum.foldl
    (fun value iax => value ^^^ mulT (innerT iax.fst iax.snd.fst points.enum) iax.snd.snd)
    0

theorem innerT_lt (i ax : Nat) (en : List (Nat × (Nat × Nat))) : innerT i ax en < 256 := by
  unfold innerT
  have h : ∀ (l : List (Nat × (Nat × Nat))) (w : Nat), w < 256 →
      l.foldl
        (fun w jbx =>
          if i ≠ jbx.fst then
            mulT w (if ax ^^^ jbx.snd.fst = 0 then 0 else divT jbx.snd.fst (ax ^^^ jbx.snd.fst))
          else w)
        w < 256 := by
    intro l
    induction l with
    | nil => exact fun w hw => hw
    | cons a l ih =>
      intro w hw
      rw [List.foldl_cons]
      by_cases hP : i ≠ a.fst
      · rw [if_pos hP]
        exact ih _ (mulT_lt _ _)
      · rw [if_neg hP]
        exact ih _ hw
  exact h _ 1 (by decide)

theorem inner_fold_congr (points : List (Nat × Nat))
    (hpts : ∀ q ∈ points, q.1 < 256 ∧ q.2 < 256) (i ax : Nat) (hax : ax < 256) :
    ∀ (en : List (Nat × (Nat × Nat))), (∀ jp ∈ en, jp.snd ∈ points) → ∀ w, w < 256 →
      en.foldl
        (fun w jbx =>
          if i ≠ jbx.fst then mul w ((div jbx.snd.fst (ax ^^^ jbx.snd.fst)).getD 0) else w)
        w
      = en.foldl
        (fun w jbx =>
          if i ≠ jbx.fst then
            mulT w (if ax ^^^ jbx.snd.fst = 0 then 0 else divT jbx.snd.fst (ax ^^^ jbx.snd.fst))
          else w)
        w := by
  intro en
  induction en with
  | nil => intro _ w _; rfl
  | cons jp en ih =>
    intro hmem w hw
    rw [List.foldl_cons, List.foldl_cons]
    have hjp : jp.snd ∈ points := hmem jp (List.mem_cons_self _ _)
    have htail := fun q hq => hmem q (List.mem_cons_of_mem _ hq)
    by_cases hij : i ≠ jp.fst
    · rw [if_pos hij, if_pos hij]
      by_cases hz : ax ^^^ jp.snd.fst = 0
      · rw [hz, if_pos rfl]
        rw [show (div jp.snd.fst 0).getD 0 = 0 from rfl,
          show mul w 0 = 0 from by simp [mul], show mulT w 0 = 0 from by simp [mulT]]
        exact ih htail 0 (by decide)
      · rw [if_neg hz,
          div_eq_divT jp.snd.fst (ax ^^^ jp.snd.fst) (hpts _ hjp).1
            (xor_lt_256 hax (hpts _ hjp).1) hz,
          Option.getD_some, mul_eq_mulT w _ hw (divT_lt _ _)]
        exact ih htail _ (mulT_lt _ _)
    · rw [if_neg hij, if_neg hij]
      exact ih htail w hw

theorem yiF_eq_yiT (points : List (Nat × Nat))
    (hpts : ∀ q ∈ points, q.1 < 256 ∧ q.2 < 256) :
    yiF points = yiT points := by
  unfold yiF yiT
  apply List.foldl_ext
  intro acc iax hmem
  have hsnd : iax.snd ∈ points := by
    rw [List.mem_enum_iff_getElem?] at hmem
    exact List.getElem?_mem hmem
  have henum : ∀ jp ∈ points.enum, jp.snd ∈ points := by
    intro jp hj
    rw [List.mem_enum_iff_getElem?] at hj
    exact List.getElem?_mem hj
  congr 1
  rw [show innerF iax.fst iax.snd.fst points.enum = innerT iax.fst iax.snd.fst points.enum
      from inner_fold_congr points hpts iax.fst iax.snd.fst (hpts _ hsnd).1
        points.enum henum 1 (by decide)]
  exact mul_eq_mulT _ _ (innerT_lt _ _ _) (hpts _ hsnd).2

/-! ## Claim C9: the fixed regression vector -/


theorem combine_eq_mapM (s0 : Nat × List Nat) (rest : List (Nat × List Nat))
    (hall : ∀ e ∈ s0 :: rest, e.snd.length = s0.snd.length) :
    combine (s0 :: rest)
      = (List.range s0.snd.length).mapM
          (fun i => y_intercept ((s0 :: rest).map (fun s => (s.1, s.2.getD i 0)))) := by
  unfold combine
  have hany : (s0 :: rest).any (fun s => decide (s.2.length ≠ s0.2.length)) = false := by
    rw [List.any_eq_false]
    intro e he
    simp [hall e he]
  simp only [List.head?, Option.bind_eq_bind, Option.some_bind, hany,
    Bool.false_eq_true, if_false]

/-- C9: combining the three concrete shares of the crate's regression test
yields `[1, 2, 3, 4, 5]`. -/
theorem c9_combine_regression :
    combine [(1, [64, 163, 216, 189, 193]), (3, [194, 250, 117, 212, 82]),
      (5, [95, 17, 153, 111, 252])] = some [1, 2, 3, 4, 5] := by
  have hpos : ∀ i ∈ List.range 5,
      y_intercept
        (([(1, [64, 163, 216, 189, 193]), (3, [194, 250, 117, 212, 82]),
          (5, [95, 17, 153, 111, 252])] : List (Nat × List Nat)).map
            (fun s => (s.1, s.2.getD i 0)))
        = some ([1, 2, 3, 4, 5].getD i 0) := by
    intro i hi
    have hi5 : i < 5 := List.mem_range.mp hi
    obtain rfl | rfl | rfl | rfl | rfl : i = 0 ∨ i = 1 ∨ i = 2 ∨ i = 3 ∨ i = 4 := by omega
    all_goals rw [y_intercept_eq_some _ (by decide), yiF_eq_yiT _ (by decide)]
    all_goals decide
  rw [combine_eq_mapM _ _ (by decide),
    show (((1 : Nat), ([64, 163, 216, 189, 193] : List Nat))).snd.length = 5 from rfl,
    @mapM_eq_some_map
      (fun i => y_intercept
        (([(1, [64, 163, 216, 189, 193]), (3, [194, 250, 117, 212, 82]),
          (5, [95, 17, 153, 111, 252])] : List (Nat × List Nat)).map
            (fun s => (s.1, s.2.getD i 0))))
      (fun i => [1, 2, 3, 4, 5].getD i 0)
      (List.range 5) hpos]
  decide

end SSS
